import Mathlib

/-!
Verification development for the meowdoc documentation pipeline.

The Python source is shallowly embedded:
* paths are manipulated both as strings (mirroring `os.path` on POSIX) and,
  for the filesystem walk, as absolute segment lists (the list of path
  components below the filesystem root, so `[]` stands for `/`);
* the filesystem seen by `os.walk` is a finite tree (`FSEntry`);
* YAML documents are the inductive `Yaml`, with Python `dict`s embedded as
  insertion-ordered association lists;
* fallible operations (Python code paths that raise) return `Option`.
-/

namespace Meowdoc

/-- Split a character list at every slash, mirroring Python's
`str.split("/")`: empty pieces are kept and the result is never empty. -/
def splitSlashChars : List Char → List (List Char)
  | [] => [[]]
  | c :: rest =>
    let r := splitSlashChars rest
    if c = '/' then [] :: r
    else
      match r with
      | [] => [[c]]
      | h :: t => (c :: h) :: t

/-- Python `s.split("/")` on strings. -/
def splitSlash (s : String) : List String :=
  (splitSlashChars s.toList).map String.mk

/-- Index of the last occurrence of a character, mirroring `str.rfind`
(which returns -1 when absent; here `none`). -/
def lastIdxOf (c : Char) : List Char → Option Nat
  | [] => none
  | a :: rest =>
    match lastIdxOf c rest with
    | some i => some (i + 1)
    | none => if a = c then some 0 else none

/-- `posixpath.splitext` on character lists: split at the last dot of the
base name, provided some character of the base name strictly before that
dot is not itself a dot. -/
def splitextChars (l : List Char) : List Char × List Char :=
  match lastIdxOf '.' l with
  | none => (l, [])
  | some d =>
    let sepBase : Nat :=
      match lastIdxOf '/' l with
      | none => 0
      | some s => s + 1
    if sepBase ≤ d && ((l.take d).drop sepBase).any (fun ch => ch ≠ '.') then
      (l.take d, l.drop d)
    else (l, [])

/-- `os.path.splitext(s)[0]`. -/
def splitextRoot (s : String) : String :=
  String.mk (splitextChars s.toList).1

/-- `os.path.splitext(s)[1]`. -/
def splitextExt (s : String) : String :=
  String.mk (splitextChars s.toList).2

/-- `posixpath.basename`: everything after the last slash. -/
def pBasename (s : String) : String :=
  match lastIdxOf '/' s.toList with
  | none => s
  | some i => String.mk (s.toList.drop (i + 1))

/-- `posixpath.dirname`: everything up to the last slash, with trailing
slashes stripped unless the result consists of slashes only. -/
def pDirname (s : String) : String :=
  match lastIdxOf '/' s.toList with
  | none => ""
  | some i =>
    let head := s.toList.take (i + 1)
    if head.all (fun ch => ch = '/') then String.mk head
    else String.mk ((head.reverse.dropWhile (fun ch => ch = '/')).reverse)

/-- Whether a POSIX path string is absolute. -/
def isAbsStr (s : String) : Bool :=
  match s.toList with
  | '/' :: _ => true
  | _ => false

/-- Binary `posixpath.join`.  (`os.path.join(a, b, c)` is the left fold.) -/
def pJoin (a b : String) : String :=
  if isAbsStr b then b
  else
    match a.toList.reverse with
    | [] => b
    | '/' :: _ => a ++ b
    | _ => a ++ "/" ++ b

/-- Nonempty path components of a string, `[x for x in s.split("/") if x]`. -/
def segsOf (s : String) : List String :=
  (splitSlash s).filter (fun x => x ≠ "")

/-- Normalisation of an absolute path given as segments: `.` disappears and
`..` pops the previous segment (at the root it is dropped), as
`posixpath.normpath` does on absolute paths. -/
def normAbs (segs : List String) : List String :=
  segs.foldl
    (fun acc s =>
      if s = "." then acc
      else if s = ".." then acc.dropLast
      else acc ++ [s]) []

/-- `posixpath.abspath` as segments: resolve against the (absolute,
normalised) working directory `cwd` unless already absolute. -/
def absSegs (cwd : List String) (p : String) : List String :=
  normAbs ((if isAbsStr p then [] else cwd) ++ segsOf p)

/-- Length of the longest common segment run, as
`os.path.commonprefix` on segment lists. -/
def commonPrefLen : List String → List String → Nat
  | x :: xs, y :: ys => if x = y then commonPrefLen xs ys + 1 else 0
  | _, _ => 0

/-- `"/".join` on a nonempty list of segments. -/
def intercalateSlash : List String → String
  | [] => ""
  | [x] => x
  | x :: rest => x ++ "/" ++ intercalateSlash rest

/-- `posixpath.relpath path start` relative to the working directory
`cwd` (used by `os.path.abspath` inside `relpath`). -/
def posixRelpath (cwd : List String) (path start : String) : String :=
  let pl := absSegs cwd path
  let sl := absSegs cwd start
  let i := commonPrefLen sl pl
  let relList := List.replicate (sl.length - i) ".." ++ pl.drop i
  if relList = [] then "." else intercalateSlash relList

/-- Tokens of a compiled shell glob, as produced by `fnmatch.translate`. -/
inductive GlobTok where
  | star : GlobTok
  | anyChar : GlobTok
  | lit : Char → GlobTok
  | cls : Bool → List Char → GlobTok
deriving Repr, DecidableEq

/-- Position of the closing bracket of a character class: a `]` in first
position is literal, as in `fnmatch.translate`. -/
def findClassEnd (l : List Char) : Option Nat :=
  match l with
  | ']' :: rest => (rest.findIdx? (fun ch => ch = ']')).map (fun i => i + 1)
  | _ => l.findIdx? (fun ch => ch = ']')

/-- Tokenise a glob pattern: `*`, `?`, `[...]` (with optional leading `!`
for negation), everything else literal; an unclosed `[` is literal. -/
def globTokens : List Char → List GlobTok
  | [] => []
  | '*' :: ps => GlobTok.star :: globTokens ps
  | '?' :: ps => GlobTok.anyChar :: globTokens ps
  | '[' :: '!' :: ps =>
    (match findClassEnd ps with
     | some i => GlobTok.cls true (ps.take i) :: globTokens (ps.drop (i + 1))
     | none => GlobTok.lit '[' :: globTokens ('!' :: ps))
  | '[' :: ps =>
    (match findClassEnd ps with
     | some i => GlobTok.cls false (ps.take i) :: globTokens (ps.drop (i + 1))
     | none => GlobTok.lit '[' :: globTokens ps)
  | c :: ps => GlobTok.lit c :: globTokens ps
termination_by l => l.length
decreasing_by all_goals (simp [List.length_drop]; try omega)

/-- Membership of a character in a class body; `a-b` is a range, a
hyphen in first or last position is literal. -/
def classMem (c : Char) : List Char → Bool
  | [] => false
  | a :: '-' :: b :: rest => (decide (a ≤ c) && decide (c ≤ b)) || classMem c rest
  | a :: rest => (c == a) || classMem c rest

/-- Match a tokenised glob against a character list. -/
def tokMatch : List GlobTok → List Char → Bool
  | [], [] => true
  | [], _ :: _ => false
  | GlobTok.star :: ps, s =>
    tokMatch ps s ||
      (match s with
       | [] => false
       | _ :: rest => tokMatch (GlobTok.star :: ps) rest)
  | GlobTok.anyChar :: _, [] => false
  | GlobTok.anyChar :: ps, _ :: rest => tokMatch ps rest
  | GlobTok.lit _ :: _, [] => false
  | GlobTok.lit a :: ps, c :: rest => (a == c) && tokMatch ps rest
  | GlobTok.cls _ _ :: _, [] => false
  | GlobTok.cls neg body :: ps, c :: rest =>
    (if neg then !(classMem c body) else classMem c body) && tokMatch ps rest
termination_by ps s => (ps.length, s.length)

/-- `fnmatch.fnmatch name pat` (POSIX: no case folding). -/
def fnmatchStr (name pat : String) : Bool :=
  tokMatch (globTokens pat.toList) name.toList

/-- The while loop of `MeowdocCore.should_ignore`, iterating over the
base names from the leaf upward (the first argument is the reversed
segment list); the loop breaks once ascending no longer changes the
path, so the root's empty base name is never examined here. -/
def shouldIgnoreLoop (pats : List String) : List String → Bool
  | [] => false
  | b :: rest => pats.any (fun p => fnmatchStr b p) || shouldIgnoreLoop pats rest

/-- `MeowdocCore.should_ignore` on an absolute path given as segments:
check the base name at every level from the path itself up to (but not
including) the root; for the root path itself the single check is
against its empty base name. -/
def shouldIgnore (segs : List String) (pats : List String) : Bool :=
  match segs with
  | [] => pats.any (fun p => fnmatchStr "" p)
  | _ :: _ => shouldIgnoreLoop pats segs.reverse

/-- Python `s.endswith(suffix)`. -/
def strEndsWith (s suf : String) : Bool :=
  suf.toList.isSuffixOf s.toList

/-- A node of the filesystem tree seen by `os.walk`: a file carries the
result of reading its text (`none` when the read raises), a directory
carries its children in listing order. -/
inductive FSEntry where
  | file : String → Option String → FSEntry
  | dir : String → List FSEntry → FSEntry

/-- The name of a filesystem entry. -/
def entryName : FSEntry → String
  | .file n _ => n
  | .dir n _ => n

/-- The `filenames` component of one `os.walk` listing, with each file's
read result. -/
def filesOf (children : List FSEntry) : List (String × Option String) :=
  children.filterMap (fun c =>
    match c with
    | FSEntry.file n content => some (n, content)
    | FSEntry.dir _ _ => none)

mutual
/-- `os.walk` of the entry `e` located at the absolute segment path
`loc`: top-down `(dirpath, filenames)` listings.  Walking a path that is
a file (not a directory) yields nothing. -/
def walk (loc : List String) : FSEntry → List (List String × List (String × Option String))
  | FSEntry.file _ _ => []
  | FSEntry.dir _ children => (loc, filesOf children) :: walkChildren loc children

/-- Walk every subdirectory of a listing, in order. -/
def walkChildren (loc : List String) :
    List FSEntry → List (List String × List (String × Option String))
  | [] => []
  | c :: rest => walk (loc ++ [entryName c]) c ++ walkChildren loc rest
end

/-- The body of the `_collect_files` loop for one `os.walk` listing: skip
the whole listing when the directory is rejected, then each file that
`should_ignore` does not reject yields a triple (absolute path, path
relative to the input root, read result). -/
def collectDir (inputLoc : List String) (pats : List String)
    (listing : List String × List (String × Option String)) :
    List (List String × List String × Option String) :=
  if shouldIgnore listing.1 pats then []
  else
    listing.2.filterMap (fun f =>
      let fp := listing.1 ++ [f.1]
      if shouldIgnore fp pats then none
      else some (fp, fp.drop inputLoc.length, f.2))

/-- `MeowdocCore._collect_files` combined with the corpus pre-read of
`process_path`.  Paths are absolute segment lists; `inputLoc` is the
absolute location of the input root. -/
def collectFiles (inputLoc : List String) (e : FSEntry) (pats : List String) :
    List (List String × List String × Option String) :=
  (walk inputLoc e).flatMap (collectDir inputLoc pats)

/-- The corpus `all_contents` built by `process_path`: relative path ↦
text, for every collected file whose read succeeds (a read failure is
logged and the file omitted). -/
def buildCorpus (files : List (List String × List String × Option String)) :
    List (List String × String) :=
  files.filterMap (fun f => f.2.2.map (fun c => (f.2.1, c)))

/-- Look up the filesystem entry at a relative segment path below `e`. -/
def findEntry : FSEntry → List String → Option FSEntry
  | e, [] => some e
  | FSEntry.file _ _, _ :: _ => none
  | FSEntry.dir _ children, s :: rest =>
    match children.find? (fun c => entryName c == s) with
    | some c => findEntry c rest
    | none => none

/-- No two strings of the list are equal. -/
def distinctNames : List String → Bool
  | [] => true
  | x :: xs => !(xs.contains x) && distinctNames xs

mutual
/-- Sibling entries never share a name, at every level (true of any real
directory tree). -/
def nodupSibNames : FSEntry → Bool
  | FSEntry.file _ _ => true
  | FSEntry.dir _ children => distinctNames (children.map entryName) && nodupSibList children

/-- `nodupSibNames` for every entry of a list. -/
def nodupSibList : List FSEntry → Bool
  | [] => true
  | c :: rest => nodupSibNames c && nodupSibList rest
end

/-- The output path `process_path` computes for a successful result keyed
by relative path `rel`:
`os.path.join(mkdocs_docs, os.path.dirname(rel), splitext(basename(rel))[0] + ".md")`. -/
def outPath (mkdocsDocs rel : String) : String :=
  pJoin (pJoin mkdocsDocs (pDirname rel)) (splitextRoot (pBasename rel) ++ ".md")

/-- The write events of `process_path`'s fan-in loop, in completion
order: an entry `(fp, rel)` whose generation result is present and
nonempty (Python truthiness of `docs`) produces one write of the text at
`outPath`; otherwise no artifact.  Each event records the relative path
that keyed it, the output path and the text written. -/
def processPathWrites (mkdocsDocs : String) (gen : String → Option String)
    (entries : List (String × String)) : List (String × String × String) :=
  entries.filterMap (fun e =>
    match gen e.2 with
    | some docs => if docs = "" then none else some (e.2, (outPath mkdocsDocs e.2, docs))
    | none => none)

/-- The per-file dispatch of `process_docguide_pages`: `none` when the
file is skipped, otherwise the output file name together with the
`use_ai` flag passed to `_process_single_docguide_page` (`true` =
submit the content as a prompt, `false` = copy byte-for-byte). -/
def docguideAction (fname : String) : Option (String × Bool) :=
  if !(strEndsWith fname ".md" || strEndsWith fname ".ai.md") then none
  else
    if splitextExt fname = ".ai" then
      some (splitextRoot fname ++ ".md", strEndsWith fname ".ai.md")
    else if splitextExt fname = ".md" ∧ ¬(strEndsWith fname ".ai.md" = true) then
      some (fname, strEndsWith fname ".ai.md")
    else none

/-- A YAML value as produced by `yaml.safe_load`; Python dicts are
insertion-ordered association lists with string keys. -/
inductive Yaml where
  | nullV : Yaml
  | boolV : Bool → Yaml
  | intV : Int → Yaml
  | str : String → Yaml
  | list : List Yaml → Yaml
  | dict : List (String × Yaml) → Yaml

/-- First-occurrence lookup in an association list (Python `d.get(k)` /
`d[k]`). -/
def alookup {α : Type} : List (String × α) → String → Option α
  | [], _ => none
  | kv :: rest, k => if kv.1 = k then some kv.2 else alookup rest k

/-- Python `d[k] = v`: replace the value at the first occurrence of the
key, or append the binding at the end. -/
def aset {α : Type} : List (String × α) → String → α → List (String × α)
  | [], k, v => [(k, v)]
  | kv :: rest, k, v => if kv.1 = k then (k, v) :: rest else kv :: aset rest k v

mutual
/-- Python `==` on YAML values: dict comparison ignores key order. -/
def pyEq : Yaml → Yaml → Bool
  | Yaml.nullV, Yaml.nullV => true
  | Yaml.boolV a, Yaml.boolV b => a == b
  | Yaml.intV a, Yaml.intV b => a == b
  | Yaml.str a, Yaml.str b => a == b
  | Yaml.list xs, Yaml.list ys => pyEqList xs ys
  | Yaml.dict d1, Yaml.dict d2 => (d1.length == d2.length) && pyEqDict d1 d2
  | _, _ => false

/-- Pointwise `pyEq` on lists. -/
def pyEqList : List Yaml → List Yaml → Bool
  | [], [] => true
  | x :: xs, y :: ys => pyEq x y && pyEqList xs ys
  | _, _ => false

/-- Every binding of the first dict is present (up to `pyEq`) in the
second. -/
def pyEqDict : List (String × Yaml) → List (String × Yaml) → Bool
  | [], _ => true
  | (k, v) :: rest, d2 =>
    (match alookup d2 k with
     | some w => pyEq v w
     | none => false) && pyEqDict rest d2
end

/-- `merge_dicts existing new` of `meowdoc.mkdocs`: iterate the bindings
of `new` in order; when both the existing and the incoming value at a
key are dicts, merge recursively, otherwise the incoming value is
assigned. -/
def mergeDicts : List (String × Yaml) → List (String × Yaml) → List (String × Yaml)
  | e, [] => e
  | e, (k, Yaml.dict d2) :: rest =>
    (match alookup e k with
     | some (Yaml.dict d1) => mergeDicts (aset e k (Yaml.dict (mergeDicts d1 d2))) rest
     | _ => mergeDicts (aset e k (Yaml.dict d2)) rest)
  | e, (k, v) :: rest => mergeDicts (aset e k v) rest
termination_by e n => sizeOf n
decreasing_by all_goals (simp; try omega)

/-- What the lookup of a key yields after a merge, stated from the spec
sentence: recursive merge when both sides hold maps, otherwise the
incoming value wins, and an absent incoming key leaves the existing
binding. -/
def mergeLookupSpec : Option Yaml → Option Yaml → Option Yaml
  | some (Yaml.dict d1), some (Yaml.dict d2) => some (Yaml.dict (mergeDicts d1 d2))
  | _, some v => some v
  | some v, none => some v
  | none, none => none

/-- A value of the nested dictionary `file_nav_structure` built by
`update_mkdocs_nav`: a string (the relative path) or a nested dict. -/
inductive NavVal where
  | leaf : String → NavVal
  | node : List (String × NavVal) → NavVal

/-- One iteration of the nav-structure loop of `update_mkdocs_nav`:
descend along the directory parts (creating empty dicts for missing
segments), then assign the relative path at the file name.  Descending
into a string value raises in Python (`str` supports neither item
assignment nor containment of later assignments), hence `none`. -/
def navInsert : List (String × NavVal) → List String → String → String →
    Option (List (String × NavVal))
  | d, [], filename, rel => some (aset d filename (NavVal.leaf rel))
  | d, p :: rest, filename, rel =>
    match alookup d p with
    | none => (navInsert [] rest filename rel).map (fun sub => aset d p (NavVal.node sub))
    | some (NavVal.node sub) =>
      (navInsert sub rest filename rel).map (fun s => aset d p (NavVal.node s))
    | some (NavVal.leaf _) => none

/-- `convert_to_mkdocs_nav`: each binding becomes a single-key dict, a
nested dict recursively becoming a list. -/
def convertToMkdocsNav : List (String × NavVal) → List Yaml
  | [] => []
  | (k, NavVal.node sub) :: rest =>
    Yaml.dict [(k, Yaml.list (convertToMkdocsNav sub))] :: convertToMkdocsNav rest
  | (k, NavVal.leaf s) :: rest => Yaml.dict [(k, Yaml.str s)] :: convertToMkdocsNav rest
termination_by d => sizeOf d
decreasing_by all_goals (simp; try omega)

/-- The `file_nav_structure` loop of `update_mkdocs_nav` over all
generated files: split each file's path relative to the docs root at the
separator, descend along all parts but the last, and map the last part
without its extension to the relative path.  (`splitSlash` never
returns an empty list, so the empty match arm is unreachable.) -/
def buildFileNavStructure (cwd : List String) (docsRoot : String) :
    List String → List (String × NavVal) → Option (List (String × NavVal))
  | [], acc => some acc
  | file :: rest, acc =>
    let relativePath := posixRelpath cwd file docsRoot
    let parts := splitSlash relativePath
    match parts.reverse with
    | [] => none
    | lastPart :: revInit =>
      match navInsert acc revInit.reverse (splitextRoot lastPart) relativePath with
      | some acc2 => buildFileNavStructure cwd docsRoot rest acc2
      | none => none

/-- The directory branch of `update_mkdocs_nav` on the nav list: the
first dict item holding an `API` key has that section extended in place
(Python raises unless the section is a list); when no item holds one, a
fresh `{API: converted}` item is appended at the end. -/
def extendAPISection (converted : List Yaml) : List Yaml → Option (List Yaml)
  | [] => some [Yaml.dict [("API", Yaml.list converted)]]
  | item :: rest =>
    match item with
    | Yaml.dict d =>
      (match alookup d "API" with
       | some (Yaml.list l) =>
         some (Yaml.dict (aset d "API" (Yaml.list (l ++ converted))) :: rest)
       | some _ => none
       | none => (extendAPISection converted rest).map (fun r => item :: r))
    | _ => (extendAPISection converted rest).map (fun r => item :: r)

/-- The single-file branch of `update_mkdocs_nav`: takes the first
generated file (an empty list raises `IndexError`, hence `none`) and
appends `{name: path}` to the top-level nav unless an equal (Python
`==`) entry is already present. -/
def updateNavSingleFile (cwd : List String) (mkdocsDir : String) (nav : List Yaml) :
    List String → Option (List Yaml)
  | [] => none
  | file :: _ =>
    let filename := splitextRoot (pBasename file)
    let relativePath := posixRelpath cwd file mkdocsDir
    let navEntry := Yaml.dict [(filename, Yaml.str relativePath)]
    if nav.any (fun item => pyEq item navEntry) then some nav
    else some (nav ++ [navEntry])

/-- `mkdocs.update_mkdocs_nav` after a successful load of `mkdocs.yml`,
up to the dump: ensure a `nav` key, overwrite `site_name` and `theme`
(the themes table of `meowdoc.themes` — a module not present in the
sources — is passed as `themesTable`, modelled from the spec: it maps a
theme selector to the static-site generator's theme name, and a missing
selector raises `KeyError`), then rebuild and splice the navigation.
`none` models an uncaught exception: the configuration file is then
never rewritten. -/
def updateMkdocsNav (themesTable : String → Option String) (cwd : List String)
    (config : List (String × Yaml)) (generatedFiles : List String) (isInputDir : Bool)
    (mkdocsDir docsDirName name theme : String) : Option (List (String × Yaml)) :=
  let cfg0 := if (alookup config "nav").isSome then config else aset config "nav" (Yaml.list [])
  match themesTable theme with
  | none => none
  | some themeName =>
    let cfg1 := aset cfg0 "site_name" (Yaml.str name)
    let cfg2 := aset cfg1 "theme" (Yaml.dict [("name", Yaml.str themeName)])
    match alookup cfg2 "nav" with
    | some (Yaml.list nav) =>
      let navNew :=
        if isInputDir then
          match buildFileNavStructure cwd (pJoin mkdocsDir docsDirName) generatedFiles [] with
          | some fns => extendAPISection (convertToMkdocsNav fns) nav
          | none => none
        else updateNavSingleFile cwd mkdocsDir nav generatedFiles
      match navNew with
      | some n => some (aset cfg2 "nav" (Yaml.list n))
      | none => none
    | _ => none

/-- The entries of the first `API` section of the document's nav list
(observation helper for stating theorems). -/
def findAPIIn : List Yaml → Option (List Yaml)
  | [] => none
  | Yaml.dict d :: rest =>
    (match alookup d "API" with
     | some (Yaml.list l) => some l
     | some _ => none
     | none => findAPIIn rest)
  | _ :: rest => findAPIIn rest

/-- The entries of the `API` section of a configuration document. -/
def apiSectionEntries (config : List (String × Yaml)) : Option (List Yaml) :=
  match alookup config "nav" with
  | some (Yaml.list nav) => findAPIIn nav
  | _ => none

/-- A sample themes table for concrete runs.  The real table lives in
`meowdoc.themes`, a module not among the sources; modelled from the
spec, which names `material` as the default theme selector. -/
def sampleThemes : String → Option String :=
  fun t => if t = "material" then some "material" else none

/-! ### Lemmas about `should_ignore` -/

theorem shouldIgnoreLoop_eq_any (pats : List String) (l : List String) :
    shouldIgnoreLoop pats l = l.any (fun b => pats.any (fun p => fnmatchStr b p)) := by
  induction l with
  | nil => rfl
  | cons b rest ih => simp [shouldIgnoreLoop, ih]

theorem shouldIgnore_eq_any (segs pats : List String) (h : segs ≠ []) :
    shouldIgnore segs pats = segs.any (fun b => pats.any (fun p => fnmatchStr b p)) := by
  cases segs with
  | nil => exact absurd rfl h
  | cons a rest =>
    simp [shouldIgnore, shouldIgnoreLoop_eq_any, List.any_reverse, Bool.or_comm]

theorem shouldIgnore_of_mem (segs pats : List String) (b : String) (hb : b ∈ segs)
    (hm : ∃ p ∈ pats, fnmatchStr b p = true) : shouldIgnore segs pats = true := by
  rw [shouldIgnore_eq_any segs pats (List.ne_nil_of_mem hb)]
  exact List.any_eq_true.2 ⟨b, hb, List.any_eq_true.2 hm⟩

theorem shouldIgnore_append_of_left (l1 l2 pats : List String) (h1 : l1 ≠ [])
    (h : shouldIgnore l1 pats = true) : shouldIgnore (l1 ++ l2) pats = true := by
  rw [shouldIgnore_eq_any l1 pats h1] at h
  obtain ⟨b, hb, hm⟩ := List.any_eq_true.1 h
  exact shouldIgnore_of_mem _ _ b (List.mem_append_left l2 hb) (List.any_eq_true.1 hm)

/-- C4.  For every absolute path (given as its segment list) and every
pattern set, if the base name of the path or of any ancestor directory
strictly below the filesystem root (the ascent stops at the root, once
ascending no longer changes the path) matches some pattern under
shell-glob semantics, `should_ignore` returns true. -/
theorem should_ignore_of_ancestor_match (segs pats pre : List String)
    (hpre : pre <+: segs) (hne : pre ≠ [])
    (hm : ∃ p ∈ pats, fnmatchStr (pre.getLast hne) p = true) :
    shouldIgnore segs pats = true :=
  shouldIgnore_of_mem segs pats (pre.getLast hne)
    (hpre.subset (List.getLast_mem hne)) hm

/-- Witness for C4 at a concrete input: `.git` is an ancestor directory
of `/home/user/.git/x.py` and matches the pattern `.git`. -/
theorem should_ignore_of_ancestor_match_witness :
    (["home", "user", ".git"] <+: ["home", "user", ".git", "x.py"])
    ∧ shouldIgnore ["home", "user", ".git", "x.py"] [".git"] = true := by
  refine ⟨⟨["x.py"], rfl⟩, ?_⟩
  exact should_ignore_of_ancestor_match _ _ ["home", "user", ".git"] ⟨["x.py"], rfl⟩
    (by simp)
    ⟨".git", by simp, by simp [fnmatchStr, globTokens, tokMatch, findClassEnd]⟩

/-! ### C2: single-file inputs produce an empty corpus -/

/-- C2 (divergence witness).  `os.walk` of a path that is a file yields
no listing at all, so for every single-file input the collector returns
nothing and the corpus is empty — the claimed one-entry corpus never
appears. -/
theorem collect_files_single_file_empty (inputLoc : List String) (n : String)
    (content : Option String) (pats : List String) :
    collectFiles inputLoc (FSEntry.file n content) pats = []
    ∧ buildCorpus (collectFiles inputLoc (FSEntry.file n content) pats) = [] := by
  constructor <;> simp [collectFiles, walk, buildCorpus]

/-! ### C3: docguide page dispatch -/

/-- C3 (divergence witness).  `splitext("guide.ai.md")` yields extension
`.md`, so the `ext == '.ai'` branch never fires and a `.ai.md` page is
skipped rather than submitted as a prompt; a plain `.md` page is
dispatched for a byte-for-byte copy (`use_ai = false`) under its own
name. -/
theorem docguide_ai_md_skipped :
    docguideAction "guide.ai.md" = none
    ∧ docguideAction "notes.md" = some ("notes.md", false) :=
  ⟨rfl, rfl⟩

/-! ### C9: nav tree construction and conversion -/

/-- C9.  For the output paths `pkg/mod_a.md`, `pkg/mod_b.md` and
`top.md` below the docs root, the nav structure built by
`update_mkdocs_nav` nests the two leaf entries under a single `pkg`
node with the `top` leaf as an outer-level sibling, each leaf mapping
the extension-stripped filename to the full relative path. -/
theorem nav_tree_grouping :
    (buildFileNavStructure [] "/site/docs"
      ["/site/docs/pkg/mod_a.md", "/site/docs/pkg/mod_b.md", "/site/docs/top.md"] []).map
      convertToMkdocsNav =
    some [Yaml.dict [("pkg", Yaml.list [Yaml.dict [("mod_a", Yaml.str "pkg/mod_a.md")],
                                        Yaml.dict [("mod_b", Yaml.str "pkg/mod_b.md")]])],
          Yaml.dict [("top", Yaml.str "top.md")]] := by
  simp [buildFileNavStructure, navInsert, convertToMkdocsNav, posixRelpath, absSegs,
    segsOf, normAbs, isAbsStr, splitSlash, splitSlashChars, commonPrefLen,
    intercalateSlash, pJoin, splitextRoot, splitextChars, lastIdxOf, alookup, aset]

/-! ### C1: the navigation merge is not idempotent -/

/-- C1 (divergence witness).  Running `update_mkdocs_nav` a second time
with the same generated file set and the configuration produced by the
first run appends the freshly built structure to the `API` section
without any deduplication: the structurally identical entry is kept
twice and the section grows from one entry to two. -/
theorem update_mkdocs_nav_second_run_duplicates :
    ((updateMkdocsNav sampleThemes [] [("nav", Yaml.list [])]
        ["/site/docs/pkg/mod_a.md"] true "/site" "docs" "proj" "material").bind
      apiSectionEntries =
      some [Yaml.dict [("pkg", Yaml.list [Yaml.dict [("mod_a", Yaml.str "pkg/mod_a.md")]])]])
    ∧
    (((updateMkdocsNav sampleThemes [] [("nav", Yaml.list [])]
        ["/site/docs/pkg/mod_a.md"] true "/site" "docs" "proj" "material").bind
      (fun c => updateMkdocsNav sampleThemes [] c
        ["/site/docs/pkg/mod_a.md"] true "/site" "docs" "proj" "material")).bind
      apiSectionEntries =
      some [Yaml.dict [("pkg", Yaml.list [Yaml.dict [("mod_a", Yaml.str "pkg/mod_a.md")]])],
            Yaml.dict [("pkg", Yaml.list [Yaml.dict [("mod_a", Yaml.str "pkg/mod_a.md")]])]]) := by
  constructor <;>
    simp [updateMkdocsNav, sampleThemes, alookup, aset, apiSectionEntries, findAPIIn,
      buildFileNavStructure, navInsert, convertToMkdocsNav, extendAPISection,
      posixRelpath, absSegs, segsOf, normAbs, isAbsStr, splitSlash, splitSlashChars,
      commonPrefLen, intercalateSlash, pJoin, splitextRoot, splitextChars, lastIdxOf,
      Option.bind]

/-! ### Association list lemmas -/

theorem alookup_aset_self {α : Type} (d : List (String × α)) (k : String) (v : α) :
    alookup (aset d k v) k = some v := by
  induction d with
  | nil => simp [aset, alookup]
  | cons kv rest ih =>
    by_cases h : kv.1 = k <;> simp [aset, alookup, h, ih]

theorem alookup_aset_ne {α : Type} (d : List (String × α)) (k k' : String) (v : α)
    (h : k ≠ k') : alookup (aset d k v) k' = alookup d k' := by
  induction d with
  | nil => simp [aset, alookup, h]
  | cons kv rest ih =>
    by_cases hk : kv.1 = k
    · subst hk
      simp [aset, alookup, h]
    · simp [aset, alookup, hk, ih]

theorem alookup_eq_none_of_not_mem {α : Type} (d : List (String × α)) (k : String)
    (h : k ∉ d.map Prod.fst) : alookup d k = none := by
  induction d with
  | nil => rfl
  | cons kv rest ih =>
    simp only [List.map_cons, List.mem_cons, not_or] at h
    have h1 : kv.1 ≠ k := fun hh => h.1 hh.symm
    simp [alookup, h1, ih h.2]

/-! ### Lemmas about `merge_dicts` -/

theorem mergeDicts_cons (e : List (String × Yaml)) (k : String) (v : Yaml)
    (rest : List (String × Yaml)) :
    mergeDicts e ((k, v) :: rest) =
      mergeDicts
        (aset e k
          (match v, alookup e k with
           | Yaml.dict d2, some (Yaml.dict d1) => Yaml.dict (mergeDicts d1 d2)
           | _, _ => v)) rest := by
  cases v with
  | dict d2 =>
    cases h : alookup e k with
    | none => simp [mergeDicts, h]
    | some w => cases w <;> simp [mergeDicts, h]
  | nullV => simp [mergeDicts]
  | boolV b => simp [mergeDicts]
  | intV i => simp [mergeDicts]
  | str s => simp [mergeDicts]
  | list l => simp [mergeDicts]

theorem alookup_mergeDicts_not_mem (n : List (String × Yaml)) :
    ∀ (e : List (String × Yaml)) (k : String), k ∉ n.map Prod.fst →
      alookup (mergeDicts e n) k = alookup e k := by
  induction n with
  | nil => intro e k _; simp [mergeDicts]
  | cons kv rest ih =>
    intro e k h
    obtain ⟨k', v⟩ := kv
    simp only [List.map_cons, List.mem_cons, not_or] at h
    rw [mergeDicts_cons, ih _ _ h.2, alookup_aset_ne]
    exact fun hh => h.1 hh.symm

/-- C7.  The recursive dictionary merge is right-biased at leaves and
union-preserving at map nodes: for dictionaries whose incoming key list
is duplicate-free (as any Python dict is), the lookup of any key after
the merge is the recursive merge when both values are maps and the
incoming value otherwise; in particular the two concrete examples of
the specification hold. -/
theorem merge_dicts_right_biased :
    (∀ (n e : List (String × Yaml)) (k : String), (n.map Prod.fst).Nodup →
      alookup (mergeDicts e n) k = mergeLookupSpec (alookup e k) (alookup n k))
    ∧ mergeDicts [("a", Yaml.dict [("x", Yaml.intV 1)])] [("a", Yaml.dict [("y", Yaml.intV 2)])]
        = [("a", Yaml.dict [("x", Yaml.intV 1), ("y", Yaml.intV 2)])]
    ∧ mergeDicts [("a", Yaml.intV 1)] [("a", Yaml.intV 2)] = [("a", Yaml.intV 2)] := by
  refine ⟨?_, ?_, ?_⟩
  · intro n
    induction n with
    | nil =>
      intro e k _
      cases he : alookup e k with
      | none => simp [mergeDicts, he, mergeLookupSpec, alookup]
      | some v => cases v <;> simp [mergeDicts, he, mergeLookupSpec, alookup]
    | cons kv rest ih =>
      intro e k h
      obtain ⟨k', v⟩ := kv
      simp only [List.map_cons, List.nodup_cons] at h
      obtain ⟨hk', hrest⟩ := h
      rw [mergeDicts_cons]
      by_cases hkk : k' = k
      · subst hkk
        have h1 : alookup rest k' = none :=
          alookup_eq_none_of_not_mem _ _ (by simpa using hk')
        rw [ih _ _ hrest, h1, alookup_aset_self]
        cases v with
        | dict d2 =>
          cases he : alookup e k' with
          | none => simp [alookup, mergeLookupSpec, he]
          | some w => cases w <;> simp [alookup, mergeLookupSpec, he]
        | nullV => cases he : alookup e k' <;> simp [alookup, mergeLookupSpec, he]
        | boolV b => cases he : alookup e k' <;> simp [alookup, mergeLookupSpec, he]
        | intV i => cases he : alookup e k' <;> simp [alookup, mergeLookupSpec, he]
        | str s => cases he : alookup e k' <;> simp [alookup, mergeLookupSpec, he]
        | list l => cases he : alookup e k' <;> simp [alookup, mergeLookupSpec, he]
      · rw [ih _ _ hrest, alookup_aset_ne _ _ _ _ hkk]
        simp [alookup, hkk]
  · simp [mergeDicts, aset, alookup]
  · simp [mergeDicts, aset, alookup]

/-- Witness for C7 at the spec's own example. -/
theorem merge_dicts_right_biased_witness :
    ([("a", Yaml.intV 2)].map Prod.fst).Nodup
    ∧ alookup (mergeDicts [("a", Yaml.intV 1)] [("a", Yaml.intV 2)]) "a" =
        mergeLookupSpec (alookup [("a", Yaml.intV 1)] "a")
          (alookup [("a", Yaml.intV 2)] "a") :=
  ⟨by simp, merge_dicts_right_biased.1 [("a", Yaml.intV 2)] [("a", Yaml.intV 1)] "a" (by simp)⟩

/-! ### Lemmas about the output writer -/

theorem processPathWrites_key_mem (m : String) (gen : String → Option String)
    (entries : List (String × String)) (w : String × String × String)
    (hw : w ∈ processPathWrites m gen entries) : w.1 ∈ entries.map Prod.snd := by
  simp only [processPathWrites, List.mem_filterMap] at hw
  obtain ⟨e, he, hfe⟩ := hw
  cases hg : gen e.2 with
  | none => simp [hg] at hfe
  | some docs =>
    by_cases hd : docs = ""
    · simp [hg, hd] at hfe
    · simp [hg, hd] at hfe
      subst hfe
      exact List.mem_map.2 ⟨e, he, rfl⟩

/-- C6.  The fan-in writes of `process_path` are keyed by relative path
and independent of completion order: permuting the completion order
permutes the write events, and when the collected relative paths are
distinct, a successful result for `rel` (present, nonempty text)
produces exactly one write, at the deterministic mirrored location
`outPath`. -/
theorem output_writer_keyed_writes :
    (∀ (m : String) (gen : String → Option String) (l1 l2 : List (String × String)),
      l1.Perm l2 → (processPathWrites m gen l1).Perm (processPathWrites m gen l2))
    ∧ (∀ (m : String) (gen : String → Option String) (entries : List (String × String))
        (fp rel docs : String),
        (entries.map Prod.snd).Nodup → (fp, rel) ∈ entries →
        gen rel = some docs → docs ≠ "" →
        (processPathWrites m gen entries).filter (fun w => w.1 == rel) =
          [(rel, (outPath m rel, docs))]) := by
  constructor
  · intro m gen l1 l2 h
    exact h.filterMap _
  · intro m gen entries fp rel docs
    induction entries with
    | nil => intro _ hmem _ _; cases hmem
    | cons e rest ih =>
      intro hnd hmem hg hne
      simp only [List.map_cons, List.nodup_cons] at hnd
      rcases List.mem_cons.1 hmem with he | hr
      · have he2 : e = (fp, rel) := he.symm
        subst he2
        have htail : (processPathWrites m gen rest).filter (fun w => w.1 == rel) = [] := by
          rw [List.filter_eq_nil_iff]
          intro w hw
          have hmem2 := processPathWrites_key_mem m gen rest w hw
          simp only [beq_iff_eq]
          intro hweq
          exact hnd.1 (hweq ▸ hmem2)
        have hstep : processPathWrites m gen ((fp, rel) :: rest)
            = (rel, (outPath m rel, docs)) :: processPathWrites m gen rest := by
          simp [processPathWrites, hg, hne]
        rw [hstep, List.filter_cons_of_pos (by simp), htail]
      · have hrelmem : rel ∈ rest.map Prod.snd := List.mem_map.2 ⟨(fp, rel), hr, rfl⟩
        have hne2 : e.2 ≠ rel := fun hh => hnd.1 (hh ▸ hrelmem)
        have ihr := ih hnd.2 hr hg hne
        cases hge : gen e.2 with
        | none => simpa [processPathWrites, hge] using ihr
        | some docs2 =>
          by_cases hd : docs2 = ""
          · simpa [processPathWrites, hge, hd] using ihr
          · simpa [processPathWrites, hge, hd, List.filter_cons, hne2] using ihr

/-- Witness for C6 at a concrete input with one successful entry. -/
theorem output_writer_keyed_writes_witness :
    ((([("x/a.py", "a.py")] : List (String × String)).map Prod.snd).Nodup)
    ∧ (processPathWrites "site/docs" (fun r => if r = "a.py" then some "DOC" else none)
        [("x/a.py", "a.py")]).filter (fun w => w.1 == "a.py") =
        [("a.py", (outPath "site/docs" "a.py", "DOC"))] :=
  ⟨by simp,
   output_writer_keyed_writes.2 "site/docs" _ [("x/a.py", "a.py")] "x/a.py" "a.py" "DOC"
     (by simp) (by simp) (by simp) (by simp)⟩

/-- C8.  A per-entry generation failure (absent result, or the empty
string the providers return on a backend error) produces no artifact
for that entry and leaves every other entry's write events unchanged;
with two entries of which exactly one fails this way, exactly one
artifact is written. -/
theorem generation_failure_isolated :
    (∀ (m : String) (gen : String → Option String) (pre post : List (String × String))
      (fp rel : String),
      (gen rel = none ∨ gen rel = some "") →
      processPathWrites m gen (pre ++ (fp, rel) :: post) =
        processPathWrites m gen (pre ++ post))
    ∧ (∀ (m : String) (gen : String → Option String) (fp1 rel1 fp2 rel2 docs : String),
      (gen rel1 = none ∨ gen rel1 = some "") → gen rel2 = some docs → docs ≠ "" →
      processPathWrites m gen [(fp1, rel1), (fp2, rel2)] =
        [(rel2, (outPath m rel2, docs))]) := by
  constructor
  · intro m gen pre post fp rel hfail
    simp only [processPathWrites, List.filterMap_append, List.filterMap_cons]
    rcases hfail with h | h <;> rw [h] <;> simp
  · intro m gen fp1 rel1 fp2 rel2 docs hfail hg hne
    rcases hfail with h | h <;> simp [processPathWrites, h, hg, hne]

/-- Witness for C8: of two entries the first one fails with an empty
response and exactly the second one's artifact is written. -/
theorem generation_failure_isolated_witness :
    ((fun r => if r = "b.py" then some "DOC" else some "") "a.py" = none ∨
      (fun r => if r = "b.py" then some "DOC" else some "") "a.py" = some "")
    ∧ processPathWrites "site/docs" (fun r => if r = "b.py" then some "DOC" else some "")
        [("x/a.py", "a.py"), ("x/b.py", "b.py")] =
        [("b.py", (outPath "site/docs" "b.py", "DOC"))] :=
  ⟨Or.inr (by simp),
   generation_failure_isolated.2 "site/docs" _ "x/a.py" "a.py" "x/b.py" "b.py" "DOC"
     (Or.inr (by simp)) (by simp) (by simp)⟩

/-! ### C10: frame of `update_mkdocs_nav` -/

/-- C10.  Every successful run of the navigation update (the load
succeeded and no exception was raised, i.e. the embedded function
returns `some`) unconditionally overwrites `site_name` with the project
name and `theme` with the selected theme's mapping, and leaves the
value of every top-level key other than `nav`, `site_name` and `theme`
unchanged. -/
theorem update_nav_overwrites_and_frame
    (themesTable : String → Option String) (cwd : List String)
    (config : List (String × Yaml)) (generatedFiles : List String) (isInputDir : Bool)
    (mkdocsDir docsDirName name theme : String) (result : List (String × Yaml))
    (h : updateMkdocsNav themesTable cwd config generatedFiles isInputDir
          mkdocsDir docsDirName name theme = some result) :
    alookup result "site_name" = some (Yaml.str name)
    ∧ (∃ tn, themesTable theme = some tn ∧
        alookup result "theme" = some (Yaml.dict [("name", Yaml.str tn)]))
    ∧ (∀ k, k ≠ "nav" → k ≠ "site_name" → k ≠ "theme" →
        alookup result k = alookup config k) := by
  simp only [updateMkdocsNav] at h
  cases htheme : themesTable theme with
  | none => rw [htheme] at h; simp at h
  | some tn =>
    rw [htheme] at h
    simp only at h
    split at h
    case _ nav hnav =>
      split at h
      case _ n hn =>
        injection h with h
        subst h
        refine ⟨?_, ⟨tn, rfl, ?_⟩, ?_⟩
        · rw [alookup_aset_ne _ _ _ _ (by decide), alookup_aset_ne _ _ _ _ (by decide),
            alookup_aset_self]
        · rw [alookup_aset_ne _ _ _ _ (by decide), alookup_aset_self]
        · intro k hk1 hk2 hk3
          rw [alookup_aset_ne _ _ _ _ (Ne.symm hk1), alookup_aset_ne _ _ _ _ (Ne.symm hk3),
            alookup_aset_ne _ _ _ _ (Ne.symm hk2)]
          by_cases hn0 : (alookup config "nav").isSome
          · simp [hn0]
          · simp [hn0, alookup_aset_ne _ _ _ _ (Ne.symm hk1)]
      case _ hn => cases h
    case _ hnav => cases h

/-- Witness for C10 at a concrete configuration: `site_name` and
`theme` are overwritten while the unrelated `plugins` key is kept. -/
theorem update_nav_overwrites_and_frame_witness :
    (updateMkdocsNav sampleThemes [] [("nav", Yaml.list []), ("plugins", Yaml.str "p")]
      ["/site/docs/a.md"] true "/site" "docs" "NewName" "material" =
      some [("nav", Yaml.list [Yaml.dict [("API", Yaml.list [Yaml.dict [("a", Yaml.str "a.md")]])]]),
            ("plugins", Yaml.str "p"),
            ("site_name", Yaml.str "NewName"),
            ("theme", Yaml.dict [("name", Yaml.str "material")])])
    ∧ alookup [("nav", Yaml.list [Yaml.dict [("API", Yaml.list [Yaml.dict [("a", Yaml.str "a.md")]])]]),
            ("plugins", Yaml.str "p"),
            ("site_name", Yaml.str "NewName"),
            ("theme", Yaml.dict [("name", Yaml.str "material")])] "site_name" =
        some (Yaml.str "NewName") := by
  have hrun : updateMkdocsNav sampleThemes [] [("nav", Yaml.list []), ("plugins", Yaml.str "p")]
      ["/site/docs/a.md"] true "/site" "docs" "NewName" "material" =
      some [("nav", Yaml.list [Yaml.dict [("API", Yaml.list [Yaml.dict [("a", Yaml.str "a.md")]])]]),
            ("plugins", Yaml.str "p"),
            ("site_name", Yaml.str "NewName"),
            ("theme", Yaml.dict [("name", Yaml.str "material")])] := by
    simp [updateMkdocsNav, sampleThemes, alookup, aset, buildFileNavStructure, navInsert,
      convertToMkdocsNav, extendAPISection, posixRelpath, absSegs, segsOf, normAbs,
      isAbsStr, splitSlash, splitSlashChars, commonPrefLen, intercalateSlash, pJoin,
      splitextRoot, splitextChars, lastIdxOf]
  exact ⟨hrun,
    (update_nav_overwrites_and_frame sampleThemes [] _ _ _ _ _ _ _ _ hrun).1⟩

/-! ### C5: characterisation of the collected corpus -/

theorem entryName_file (n : String) (co : Option String) :
    entryName (FSEntry.file n co) = n := rfl

theorem entryName_dir (n : String) (ch : List FSEntry) :
    entryName (FSEntry.dir n ch) = n := rfl

theorem walkChildren_eq (loc : List String) (ch : List FSEntry) :
    walkChildren loc ch = ch.flatMap (fun c => walk (loc ++ [entryName c]) c) := by
  induction ch with
  | nil => simp [walkChildren]
  | cons c rest ih => simp [walkChildren, ih]

theorem mem_filesOf (ch : List FSEntry) (fname : String) (co : Option String) :
    ((fname, co) ∈ filesOf ch) ↔ FSEntry.file fname co ∈ ch := by
  simp only [filesOf, List.mem_filterMap]
  constructor
  · rintro ⟨c, hc, hm⟩
    cases c with
    | file nm ct =>
      simp only [Option.some.injEq, Prod.mk.injEq] at hm
      rw [← hm.1, ← hm.2]
      exact hc
    | dir nm cs => simp at hm
  · intro hc
    exact ⟨FSEntry.file fname co, hc, rfl⟩

theorem nodupSibList_mem (ch : List FSEntry) (c : FSEntry)
    (hch : nodupSibList ch = true) (hc : c ∈ ch) : nodupSibNames c = true := by
  induction ch with
  | nil => cases hc
  | cons c0 rest ih =>
    simp only [nodupSibList, Bool.and_eq_true] at hch
    rcases List.mem_cons.1 hc with h | h
    · exact h ▸ hch.1
    · exact ih hch.2 h

theorem find_name_of_mem (ch : List FSEntry) (c : FSEntry)
    (hd : distinctNames (ch.map entryName) = true) (hc : c ∈ ch) :
    ch.find? (fun x => entryName x == entryName c) = some c := by
  induction ch with
  | nil => cases hc
  | cons c0 rest ih =>
    simp only [List.map_cons, distinctNames, Bool.and_eq_true, Bool.not_eq_true'] at hd
    rcases List.mem_cons.1 hc with h | h
    · subst h
      simp [List.find?]
    · have hmem : entryName c ∈ rest.map entryName := List.mem_map.2 ⟨c, h, rfl⟩
      have hne : (entryName c0 == entryName c) = false := by
        rw [beq_eq_false_iff_ne]
        intro hh
        rw [hh] at hd
        have hd1 := hd.1
        simp_all
      rw [List.find?]
      rw [hne]
      exact ih hd.2 h

theorem mem_flatMap_collectDir_children {X : List String × List String × Option String}
    (loc base : List String) (pats : List String) (ch : List FSEntry) :
    (X ∈ (walkChildren loc ch).flatMap (collectDir base pats)) ↔
      ∃ c0 ∈ ch, X ∈ (walk (loc ++ [entryName c0]) c0).flatMap (collectDir base pats) := by
  rw [walkChildren_eq]
  constructor
  · intro h
    rcases List.mem_flatMap.1 h with ⟨lst, hlst, hx⟩
    rcases List.mem_flatMap.1 hlst with ⟨c0, hc0, hl⟩
    exact ⟨c0, hc0, List.mem_flatMap.2 ⟨lst, hl, hx⟩⟩
  · rintro ⟨c0, hc0, hx⟩
    rcases List.mem_flatMap.1 hx with ⟨lst, hl, hx2⟩
    exact List.mem_flatMap.2 ⟨lst, List.mem_flatMap.2 ⟨c0, hc0, hl⟩, hx2⟩

theorem walkCorpus_mem_aux (k : Nat) :
    ∀ (e : FSEntry), sizeOf e ≤ k →
    ∀ (base extra pats rel : List String) (c : String),
    base ≠ [] → nodupSibNames e = true →
    ((∃ fp, (fp, (rel, some c)) ∈ (walk (base ++ extra) e).flatMap (collectDir base pats)) ↔
      (∃ rel2 nm, rel = extra ++ rel2 ∧ rel2 ≠ [] ∧
        findEntry e rel2 = some (FSEntry.file nm (some c)) ∧
        shouldIgnore (base ++ (extra ++ rel2)) pats = false)) := by
  induction k with
  | zero =>
    intro e he
    exfalso
    cases e <;> simp at he
  | succ k ih =>
    intro e he base extra pats rel c hbase hnd
    cases e with
    | file n co =>
      constructor
      · rintro ⟨fp, hmem⟩
        simp [walk] at hmem
      · rintro ⟨rel2, nm, hrel, hne, hfind, _⟩
        cases rel2 with
        | nil => exact absurd rfl hne
        | cons s rest => simp [findEntry] at hfind
    | dir n ch =>
      have hsize : ∀ c0 ∈ ch, sizeOf c0 ≤ k := by
        intro c0 hc0
        have h1 := List.sizeOf_lt_of_mem hc0
        have h2 : sizeOf (FSEntry.dir n ch) = 1 + sizeOf n + sizeOf ch := by simp
        omega
      have hnd2 : distinctNames (ch.map entryName) = true ∧ nodupSibList ch = true := by
        simpa [nodupSibNames, Bool.and_eq_true] using hnd
      have hbe : base ++ extra ≠ [] := by
        intro hh
        exact hbase (List.append_eq_nil.1 hh).1
      have hw : walk (base ++ extra) (FSEntry.dir n ch) =
          (base ++ extra, filesOf ch) :: walkChildren (base ++ extra) ch := by
        simp [walk]
      constructor
      · rintro ⟨fp, hmem⟩
        rw [hw, List.flatMap_cons, List.mem_append] at hmem
        rcases hmem with hhead | htail
        · -- from the directory's own listing
          by_cases hig0 : shouldIgnore (base ++ extra) pats = true
          · simp [collectDir, hig0] at hhead
          · simp only [collectDir, hig0, if_neg, Bool.not_eq_true] at hhead
            rcases List.mem_filterMap.1 hhead with ⟨f, hf, heq⟩
            obtain ⟨fname, fco⟩ := f
            simp at heq
            obtain ⟨hig1f, hfp, hrelf, hfco⟩ := heq
            subst hfco
            have hfile := (mem_filesOf ch fname (some c)).1 hf
            have hfind2 := find_name_of_mem ch (FSEntry.file fname (some c)) hnd2.1 hfile
            simp only [entryName_file] at hfind2
            refine ⟨[fname], fname, hrelf.symm, by simp, ?_, ?_⟩
            · simp [findEntry, hfind2]
            · exact hig1f
        · -- from a subdirectory's walk
          rcases (mem_flatMap_collectDir_children (base ++ extra) base pats ch).1 htail
            with ⟨c0, hc0, hx⟩
          rw [List.append_assoc] at hx
          have hiff := ih c0 (hsize c0 hc0) base (extra ++ [entryName c0]) pats rel c hbase
            (nodupSibList_mem ch c0 hnd2.2 hc0)
          rcases hiff.1 ⟨fp, hx⟩ with ⟨rel2, nm, hrel, hne, hfind, hig⟩
          have hfind0 := find_name_of_mem ch c0 hnd2.1 hc0
          refine ⟨entryName c0 :: rel2, nm, ?_, by simp, ?_, ?_⟩
          · rw [hrel, List.append_assoc]
            rfl
          · simp [findEntry, hfind0, hfind]
          · rw [List.append_assoc] at hig
            simpa using hig
      · rintro ⟨rel2, nm, hrel, hne, hfind, hig⟩
        cases rel2 with
        | nil => exact absurd rfl hne
        | cons s rest =>
          simp only [findEntry] at hfind
          cases hf : ch.find? (fun x => entryName x == s) with
          | none => rw [hf] at hfind; cases hfind
          | some c0 =>
            rw [hf] at hfind
            have hc0mem := List.mem_of_find?_eq_some hf
            have hc0name : entryName c0 = s := by
              have := List.find?_some hf
              simpa using this
            cases rest with
            | nil =>
              simp only [findEntry, Option.some.injEq] at hfind
              subst hfind
              have hs : nm = s := by simpa [entryName_file] using hc0name
              rw [hs] at hc0mem
              have higf : shouldIgnore ((base ++ extra) ++ [s]) pats = false := by
                rw [List.append_assoc]
                exact hig
              have higdir : shouldIgnore (base ++ extra) pats = false := by
                by_cases hcon : shouldIgnore (base ++ extra) pats = true
                · have h3 := shouldIgnore_append_of_left (base ++ extra) [s] pats hbe hcon
                  rw [h3] at higf
                  cases higf
                · simpa using hcon
              refine ⟨(base ++ extra) ++ [s], ?_⟩
              rw [hw, List.flatMap_cons, List.mem_append]
              left
              simp only [collectDir]
              rw [if_neg (by simp [higdir])]
              rw [List.mem_filterMap]
              refine ⟨(s, some c), (mem_filesOf ch s (some c)).2 hc0mem, ?_⟩
              simp [hig, hrel]
            | cons r rl =>
              have hiff := ih c0 (hsize c0 hc0mem) base (extra ++ [entryName c0]) pats rel c
                hbase (nodupSibList_mem ch c0 hnd2.2 hc0mem)
              have hrhs : ∃ rel2' nm', rel = (extra ++ [entryName c0]) ++ rel2' ∧
                  rel2' ≠ [] ∧ findEntry c0 rel2' = some (FSEntry.file nm' (some c)) ∧
                  shouldIgnore (base ++ ((extra ++ [entryName c0]) ++ rel2')) pats = false := by
                refine ⟨r :: rl, nm, ?_, by simp, hfind, ?_⟩
                · rw [hrel, hc0name, List.append_assoc]
                  rfl
                · rw [hc0name, List.append_assoc]
                  simpa using hig
              rcases hiff.2 hrhs with ⟨fp, hx⟩
              refine ⟨fp, ?_⟩
              rw [hw, List.flatMap_cons, List.mem_append]
              right
              refine (mem_flatMap_collectDir_children (base ++ extra) base pats ch).2
                ⟨c0, hc0mem, ?_⟩
              rw [List.append_assoc]
              exact hx

/-- C5.  For every directory input (placed at a nonroot absolute
location, with distinct sibling names as on a real filesystem), the
corpus key set is exactly the set of root-relative paths of readable,
non-ignored files; and no file below a directory that `should_ignore`
rejects appears, even when its own base name matches no pattern. -/
theorem corpus_keys_characterization
    (n : String) (ch : List FSEntry) (inputLoc pats : List String)
    (hloc : inputLoc ≠ []) (hnd : nodupSibNames (FSEntry.dir n ch) = true) :
    (∀ rel : List String,
      (rel ∈ (buildCorpus (collectFiles inputLoc (FSEntry.dir n ch) pats)).map Prod.fst) ↔
        (∃ nm c, findEntry (FSEntry.dir n ch) rel = some (FSEntry.file nm (some c)) ∧
          shouldIgnore (inputLoc ++ rel) pats = false))
    ∧ (∀ rel d : List String, d <+: inputLoc ++ rel → d ≠ [] →
        shouldIgnore d pats = true →
        rel ∉ (buildCorpus (collectFiles inputLoc (FSEntry.dir n ch) pats)).map Prod.fst) := by
  have hbridge : ∀ rel : List String,
      (rel ∈ (buildCorpus (collectFiles inputLoc (FSEntry.dir n ch) pats)).map Prod.fst) ↔
        ∃ c fp, (fp, (rel, some c)) ∈ collectFiles inputLoc (FSEntry.dir n ch) pats := by
    intro rel
    constructor
    · intro h
      rcases List.mem_map.1 h with ⟨kv, hkv, hfst⟩
      rcases List.mem_filterMap.1 hkv with ⟨f, hfmem, hfeq⟩
      obtain ⟨fp, rel2, co⟩ := f
      cases co with
      | none => cases hfeq
      | some c =>
        simp only [Option.map_some'] at hfeq
        injection hfeq with hfeq
        subst hfeq
        have hr : rel2 = rel := hfst
        subst hr
        exact ⟨c, fp, hfmem⟩
    · rintro ⟨c, fp, hmem⟩
      refine List.mem_map.2 ⟨(rel, c), ?_, rfl⟩
      exact List.mem_filterMap.2 ⟨(fp, (rel, some c)), hmem, rfl⟩
  have hpart1 : ∀ rel : List String,
      (rel ∈ (buildCorpus (collectFiles inputLoc (FSEntry.dir n ch) pats)).map Prod.fst) ↔
        (∃ nm c, findEntry (FSEntry.dir n ch) rel = some (FSEntry.file nm (some c)) ∧
          shouldIgnore (inputLoc ++ rel) pats = false) := by
    intro rel
    rw [hbridge rel]
    constructor
    · rintro ⟨c, fp, hmem⟩
      have h2 := (walkCorpus_mem_aux (sizeOf (FSEntry.dir n ch)) (FSEntry.dir n ch) le_rfl
        inputLoc [] pats rel c hloc hnd).1 ⟨fp, by simpa [collectFiles] using hmem⟩
      rcases h2 with ⟨rel2, nm, hrel, hne, hfind, hig⟩
      have hr : rel = rel2 := by simpa using hrel
      subst hr
      exact ⟨nm, c, hfind, by simpa using hig⟩
    · rintro ⟨nm, c, hfind, hig⟩
      have hrelne : rel ≠ [] := by
        intro hh
        subst hh
        simp [findEntry] at hfind
      have h2 := (walkCorpus_mem_aux (sizeOf (FSEntry.dir n ch)) (FSEntry.dir n ch) le_rfl
        inputLoc [] pats rel c hloc hnd).2 ⟨rel, nm, by simp, hrelne, hfind, by simpa using hig⟩
      rcases h2 with ⟨fp, hmem⟩
      exact ⟨c, fp, by simpa [collectFiles] using hmem⟩
  refine ⟨hpart1, ?_⟩
  intro rel d hd hdne higd hmemk
  rcases (hpart1 rel).1 hmemk with ⟨nm, c, hfind, hig⟩
  rcases hd with ⟨t, ht⟩
  have h3 := shouldIgnore_append_of_left d t pats hdne higd
  rw [ht] at h3
  rw [h3] at hig
  cases hig

/-- Witness for C5 on a concrete tree: with pattern `sub`, the readable
non-ignored file `a.py` is characterised by the corpus membership
equivalence. -/
theorem corpus_keys_characterization_witness :
    nodupSibNames (FSEntry.dir "proj"
      [FSEntry.file "a.py" (some "A"),
       FSEntry.dir "sub" [FSEntry.file "b.py" (some "B")]]) = true
    ∧ ((["a.py"] ∈ (buildCorpus (collectFiles ["home", "proj"]
          (FSEntry.dir "proj" [FSEntry.file "a.py" (some "A"),
            FSEntry.dir "sub" [FSEntry.file "b.py" (some "B")]]) ["sub"])).map Prod.fst) ↔
        (∃ nm c, findEntry (FSEntry.dir "proj" [FSEntry.file "a.py" (some "A"),
            FSEntry.dir "sub" [FSEntry.file "b.py" (some "B")]]) ["a.py"] =
            some (FSEntry.file nm (some c)) ∧
          shouldIgnore (["home", "proj"] ++ ["a.py"]) ["sub"] = false)) :=
  ⟨by simp [nodupSibNames, nodupSibList, distinctNames, entryName],
   (corpus_keys_characterization "proj"
     [FSEntry.file "a.py" (some "A"),
      FSEntry.dir "sub" [FSEntry.file "b.py" (some "B")]] ["home", "proj"] ["sub"]
     (by simp)
     (by simp [nodupSibNames, nodupSibList, distinctNames, entryName])).1 ["a.py"]⟩

end Meowdoc
